import Mathlib

/-!
Verification of the AntiTheft monitoring core against its specification.

The Python source is shallowly embedded: pure functions become Lean
functions, stateful classes become structures with explicit state-passing
operations, wall-clock time (`time.time()`) becomes an explicit rational
parameter `now`, and operations that can raise a Python exception return
`Option` (with `none` for the raised exception).
-/

namespace AntiTheft

/-! ## State machine (src/state_machine.py) -/

/-- System states, mirroring the `SystemState` enum. -/
inductive SystemState where
  | IDLE
  | MONITORING
  | ALERT
  | ALARM
  | COOLDOWN
deriving DecidableEq, Repr

open SystemState

/-- The transition table `StateTransition.VALID_TRANSITIONS`. -/
def VALID_TRANSITIONS : SystemState → List SystemState
  | IDLE => [MONITORING]
  | MONITORING => [ALERT, IDLE]
  | ALERT => [ALARM, MONITORING]
  | ALARM => [COOLDOWN]
  | COOLDOWN => [MONITORING, IDLE]

/-- Mirrors `StateTransition.is_valid_transition`; every state is a key of
the table, so the Python `from_state not in VALID_TRANSITIONS` guard is
never taken. -/
def is_valid_transition (from_state to_state : SystemState) : Bool :=
  to_state ∈ VALID_TRANSITIONS from_state

/-- One entry of `StateMachine.state_history` (the redundant human-readable
`datetime` string is a pure formatting of `timestamp` and is omitted). -/
structure HistEntry where
  state : SystemState
  timestamp : ℚ
  reason : String
deriving DecidableEq, Repr

/-- The mutable state of a `StateMachine` object (the lock and the
callback registry carry no verified behavior). -/
structure SMState where
  current_state : SystemState
  previous_state : Option SystemState
  state_enter_time : ℚ
  state_history : List HistEntry
  transition_count : ℕ
deriving DecidableEq, Repr

/-- Mirrors `StateMachine.__init__` at wall-clock time `t`: it records the
initial state as the first history entry via `_record_state_entry`. -/
def initSM (initial_state : SystemState) (t : ℚ) : SMState :=
  { current_state := initial_state
    previous_state := none
    state_enter_time := t
    state_history := [{ state := initial_state, timestamp := t, reason := "" }]
    transition_count := 0 }

/-- Mirrors `StateMachine.transition_to` called at wall-clock time `now`;
returns the Python boolean result together with the post-call object state.
The per-state callback is an external effect and is not modeled. -/
def transition_to (s : SMState) (new_state : SystemState) (reason : String)
    (now : ℚ) : Bool × SMState :=
  if is_valid_transition s.current_state new_state then
    (true,
      { current_state := new_state
        previous_state := some s.current_state
        state_enter_time := now
        state_history := s.state_history ++
          [{ state := new_state, timestamp := now, reason := reason }]
        transition_count := s.transition_count + 1 })
  else
    (false, s)

/-- A sequence of `transition_to` calls: each element carries the target
state, the reason and the wall-clock time of the call. -/
def runTransitions (s : SMState) : List (SystemState × String × ℚ) → SMState
  | [] => s
  | c :: rest => runTransitions (transition_to s c.1 c.2.1 c.2.2).2 rest

/-- Invariant tying the history to the current state and the counter. -/
def SMInv (s : SMState) : Prop :=
  s.state_history ≠ [] ∧
  (s.state_history.getLast?).map HistEntry.state = some s.current_state ∧
  s.transition_count + 1 = s.state_history.length

theorem smInv_init (st : SystemState) (t : ℚ) : SMInv (initSM st t) := by
  refine ⟨by simp [initSM], ?_, by simp [initSM]⟩
  simp [initSM, List.getLast?]

theorem smInv_step (s : SMState) (h : SMInv s) (tgt : SystemState)
    (reason : String) (now : ℚ) : SMInv (transition_to s tgt reason now).2 := by
  obtain ⟨h1, h2, h3⟩ := h
  unfold transition_to
  by_cases hv : is_valid_transition s.current_state tgt
  · simp only [hv, if_pos]
    refine ⟨by simp, ?_, by simp [h3]⟩
    simp [List.getLast?_append]
  · simp only [hv]
    exact ⟨h1, h2, h3⟩

theorem smInv_run (s : SMState) (h : SMInv s)
    (ops : List (SystemState × String × ℚ)) : SMInv (runTransitions s ops) := by
  induction ops generalizing s with
  | nil => exact h
  | cons c rest ih =>
    exact ih _ (smInv_step s h c.1 c.2.1 c.2.2)

/-- C1: `transition_to(target, reason)` returns false and performs no
mutation exactly when the target is not an allowed successor of the current
state in the transition table; otherwise it returns true, records the
previous state, sets the current state to the target, increments the
transition counter, and appends one history entry with the new state, the
timestamp and the reason. -/
theorem transitionTo_spec (s : SMState) (tgt : SystemState) (reason : String)
    (now : ℚ) :
    (((transition_to s tgt reason now).1 = false ∧
      (transition_to s tgt reason now).2 = s) ↔
      tgt ∉ VALID_TRANSITIONS s.current_state) ∧
    (tgt ∈ VALID_TRANSITIONS s.current_state →
      (transition_to s tgt reason now).1 = true ∧
      (transition_to s tgt reason now).2.previous_state = some s.current_state ∧
      (transition_to s tgt reason now).2.current_state = tgt ∧
      (transition_to s tgt reason now).2.transition_count =
        s.transition_count + 1 ∧
      (transition_to s tgt reason now).2.state_history =
        s.state_history ++
          [{ state := tgt, timestamp := now, reason := reason }]) := by
  constructor
  · constructor
    · intro ⟨hb, _⟩ hmem
      have hv : is_valid_transition s.current_state tgt = true := by
        simp [is_valid_transition, hmem]
      simp [transition_to, hv] at hb
    · intro hmem
      have hv : is_valid_transition s.current_state tgt = false := by
        simp [is_valid_transition]
        exact hmem
      simp [transition_to, hv]
  · intro hmem
    have hv : is_valid_transition s.current_state tgt = true := by
      simp [is_valid_transition, hmem]
    simp [transition_to, hv]

/-- Witness for C1: from `MONITORING`, the target `ALERT` is in the table
and the transition succeeds with all documented effects. -/
theorem transitionTo_spec_witness :
    ALERT ∈ VALID_TRANSITIONS MONITORING ∧
    (transition_to (initSM MONITORING 0) ALERT ("threat") 1).1 = true := by
  have h := (transitionTo_spec (initSM MONITORING 0) ALERT ("threat") 1).2
    (by decide)
  exact ⟨by decide, h.1⟩

/-- C10: after every sequence of `transition_to` calls from a freshly
constructed state machine, the history is non-empty, its last entry records
the current state, and the transition counter equals the history length
minus one. -/
theorem sm_history_invariant (initial : SystemState) (t0 : ℚ)
    (ops : List (SystemState × String × ℚ)) :
    (runTransitions (initSM initial t0) ops).state_history ≠ [] ∧
    ((runTransitions (initSM initial t0) ops).state_history.getLast?).map
      HistEntry.state =
      some (runTransitions (initSM initial t0) ops).current_state ∧
    (runTransitions (initSM initial t0) ops).transition_count =
      (runTransitions (initSM initial t0) ops).state_history.length - 1 := by
  have h := smInv_run (initSM initial t0) (smInv_init initial t0) ops
  obtain ⟨h1, h2, h3⟩ := h
  exact ⟨h1, h2, by omega⟩

/-! ## Alarm system cooldown timer (src/state_machine.py, AlarmSystem) -/

/-- The mutable state of an `AlarmSystem` object (audio backend, sound
file and duration only affect the external sound output). -/
structure AlarmSystem where
  enabled : Bool
  cooldown_period : ℚ
  is_active : Bool
  last_trigger_time : ℚ
  trigger_count : ℕ
deriving DecidableEq, Repr

/-- Mirrors `AlarmSystem.__init__`: inactive, `last_trigger_time = 0`,
zero triggers. -/
def initAlarm (enabled : Bool) (cooldown_period : ℚ) : AlarmSystem :=
  { enabled := enabled
    cooldown_period := cooldown_period
    is_active := false
    last_trigger_time := 0
    trigger_count := 0 }

/-- Mirrors `AlarmSystem.can_trigger` at wall-clock time `now`. -/
def can_trigger (a : AlarmSystem) (now : ℚ) : Bool :=
  if a.enabled = false then false
  else decide (a.cooldown_period ≤ now - a.last_trigger_time)

/-- Mirrors `AlarmSystem.trigger` at wall-clock time `now`; the sound
playback runs on a separate thread and is not modeled. -/
def trigger (a : AlarmSystem) (now : ℚ) : AlarmSystem :=
  if can_trigger a now = false then a
  else
    { a with
      is_active := true
      last_trigger_time := now
      trigger_count := a.trigger_count + 1 }

/-- C5: `can_trigger` holds exactly when enabled and the elapsed time since
`last_trigger_time` is at least the cooldown; a blocked `trigger` changes
no state; an allowed `trigger` sets the active flag, stamps the time and
increments the counter; two calls within one cooldown window leave the
counter at 1 and a third call after the window raises it to 2. -/
theorem alarm_cooldown_spec :
    (∀ (a : AlarmSystem) (now : ℚ),
      (can_trigger a now = true ↔
        a.enabled = true ∧ a.cooldown_period ≤ now - a.last_trigger_time) ∧
      (can_trigger a now = false → trigger a now = a) ∧
      (can_trigger a now = true →
        trigger a now =
          { a with
            is_active := true
            last_trigger_time := now
            trigger_count := a.trigger_count + 1 })) ∧
    (∀ (cp t1 t2 t3 : ℚ), cp ≤ t1 → t2 - t1 < cp → cp ≤ t3 - t1 →
      (trigger (initAlarm true cp) t1).trigger_count = 1 ∧
      (trigger (trigger (initAlarm true cp) t1) t2).trigger_count = 1 ∧
      (trigger (trigger (trigger (initAlarm true cp) t1) t2) t3).trigger_count
        = 2) := by
  constructor
  · intro a now
    refine ⟨?_, ?_, ?_⟩
    · unfold can_trigger
      by_cases he : a.enabled = false
      · simp [he]
      · simp only [he, if_neg]
        constructor
        · intro h
          exact ⟨by revert he; cases a.enabled <;> simp, by simpa using h⟩
        · intro ⟨_, h2⟩
          simpa using h2
    · intro h
      simp [trigger, h]
    · intro h
      simp [trigger, h]
  · intro cp t1 t2 t3 h1 h2 h3
    have hc1 : can_trigger (initAlarm true cp) t1 = true := by
      simp [can_trigger, initAlarm]
      linarith
    have e1 : trigger (initAlarm true cp) t1 =
        { enabled := true, cooldown_period := cp, is_active := true
          last_trigger_time := t1, trigger_count := 1 } := by
      unfold trigger
      rw [hc1]
      simp [initAlarm]
    have hc2 : can_trigger
        ({ enabled := true, cooldown_period := cp, is_active := true
           last_trigger_time := t1, trigger_count := 1 } : AlarmSystem) t2
        = false := by
      simp [can_trigger]
      linarith
    have e2 : trigger
        ({ enabled := true, cooldown_period := cp, is_active := true
           last_trigger_time := t1, trigger_count := 1 } : AlarmSystem) t2 =
        { enabled := true, cooldown_period := cp, is_active := true
          last_trigger_time := t1, trigger_count := 1 } := by
      simp [trigger, hc2]
    have hc3 : can_trigger
        ({ enabled := true, cooldown_period := cp, is_active := true
           last_trigger_time := t1, trigger_count := 1 } : AlarmSystem) t3
        = true := by
      simp [can_trigger]
      linarith
    have e3 : (trigger
        ({ enabled := true, cooldown_period := cp, is_active := true
           last_trigger_time := t1, trigger_count := 1 } : AlarmSystem) t3
        ).trigger_count = 2 := by
      unfold trigger
      rw [hc3]
      simp
    refine ⟨by rw [e1], by rw [e1, e2], ?_⟩
    rw [e1, e2, e3]

/-- Witness for C5: cooldown 10, calls at times 10, 15 and 25. -/
theorem alarm_cooldown_spec_witness :
    (10 : ℚ) ≤ 10 ∧ (15 : ℚ) - 10 < 10 ∧ (10 : ℚ) ≤ 25 - 10 ∧
    (trigger (trigger (trigger (initAlarm true 10) 10) 15) 25).trigger_count
      = 2 := by
  have h := alarm_cooldown_spec.2 10 10 15 25 (by norm_num) (by norm_num)
    (by norm_num)
  exact ⟨by norm_num, by norm_num, by norm_num, h.2.2⟩

/-! ## Driving control loop (src/main.py, AntiTheftSystem._handle_detection) -/

/-- Mirrors the state-machine effect of `AntiTheftSystem._handle_detection`
at wall-clock time `now` (`get_time_in_state()` is `now` minus the state
entry timestamp; the alert dwell threshold is the literal `2.0`). Logging,
event recording and the `_trigger_alarm` I/O actions are external effects
and are not modeled. -/
def handle_detection (sm : SMState) (alarm_trigger : Bool) (now : ℚ)
    (cooldown_period : ℚ) : SMState :=
  if alarm_trigger then
    if sm.current_state = MONITORING then
      (transition_to sm ALERT ("Threat detected") now).2
    else if sm.current_state = ALERT then
      if 2 < now - sm.state_enter_time then
        (transition_to sm ALARM ("Confirmed threat") now).2
      else sm
    else sm
  else
    if sm.current_state = ALERT then
      (transition_to sm MONITORING ("False alarm") now).2
    else if sm.current_state = COOLDOWN then
      if cooldown_period < now - sm.state_enter_time then
        (transition_to sm MONITORING ("Cooldown expired") now).2
      else sm
    else sm

/-- Counterexample to C7 as stated: in the Cooldown state with elapsed time
100 > cooldown 10 but with a true trigger boolean, one step of the control
loop leaves the controller in Cooldown, not Monitoring. -/
theorem cooldown_step_counterexample :
    (10 : ℚ) < 100 - (initSM COOLDOWN 0).state_enter_time ∧
    (handle_detection (initSM COOLDOWN 0) true 100 10).current_state
      = COOLDOWN := by
  constructor
  · norm_num [initSM]
  · rfl

/-- C7 (amended): one step of the control loop taken with a FALSE trigger
boolean while the controller is in Cooldown with elapsed time greater than
the configured cooldown duration transitions the controller to
Monitoring. -/
theorem cooldown_step_to_monitoring (sm : SMState) (now cooldown_period : ℚ)
    (hst : sm.current_state = COOLDOWN)
    (ht : cooldown_period < now - sm.state_enter_time) :
    (handle_detection sm false now cooldown_period).current_state
      = MONITORING := by
  have hv : is_valid_transition COOLDOWN MONITORING = true := by decide
  simp [handle_detection, hst, ht, transition_to, hv]

/-- Witness for C7 (amended): a concrete Cooldown state with elapsed time
100 and cooldown 10. -/
theorem cooldown_step_to_monitoring_witness :
    (initSM COOLDOWN 0).current_state = COOLDOWN ∧
    (10 : ℚ) < 100 - (initSM COOLDOWN 0).state_enter_time ∧
    (handle_detection (initSM COOLDOWN 0) false 100 10).current_state
      = MONITORING := by
  refine ⟨rfl, by norm_num [initSM], ?_⟩
  exact cooldown_step_to_monitoring (initSM COOLDOWN 0) 100 10 rfl
    (by norm_num [initSM])

/-! ## Motion detection area filter (src/motion_detection.py) -/

/-- Mirrors `BooleanLogic.threshold_comparison`. -/
def threshold_comparison (value threshold : ℚ) (operation : String) : Bool :=
  if operation = "greater" then decide (threshold < value)
  else if operation = "less" then decide (value < threshold)
  else if operation = "equal" then decide (value = threshold)
  else if operation = "greater_equal" then decide (threshold ≤ value)
  else if operation = "less_equal" then decide (value ≤ threshold)
  else false

/-- Mirrors `MotionDetector.filter_contours`; a contour is represented by
its pixel area (`cv2.contourArea`), the only attribute the filter reads. -/
def filter_contours (areas : List ℚ) (min_contour_area : ℚ) : List ℚ :=
  areas.filter (fun area => threshold_comparison area min_contour_area ("greater"))

/-- Mirrors stage 7 of `MotionDetector.detect_motion`:
`motion_detected = len(filtered_contours) > 0`. -/
def motion_present (areas : List ℚ) (min_contour_area : ℚ) : Bool :=
  decide (0 < (filter_contours areas min_contour_area).length)

/-- Counterexample to C6 as stated: a region whose area equals the minimum
area 500 does NOT survive the filter (the code keeps only areas strictly
greater than the minimum), and the frame decision is then false. -/
theorem area_filter_counterexample :
    filter_contours [(500 : ℚ)] 500 = [] ∧
    (500 : ℚ) ∉ filter_contours [(500 : ℚ)] 500 ∧
    motion_present [(500 : ℚ)] 500 = false := by
  refine ⟨?_, ?_, ?_⟩ <;> decide

/-- C6 (amended): the filter keeps exactly the regions whose area is
strictly greater than the configured minimum (discarding those below it
and those equal to it), and the per-frame decision is
`motion_present = (count of surviving regions) > 0`. -/
theorem area_filter_spec (areas : List ℚ) (min_contour_area : ℚ) :
    filter_contours areas min_contour_area =
      areas.filter (fun a => decide (min_contour_area < a)) ∧
    (∀ a : ℚ, a ∈ filter_contours areas min_contour_area ↔
      a ∈ areas ∧ min_contour_area < a) ∧
    (motion_present areas min_contour_area = true ↔
      0 < (filter_contours areas min_contour_area).length) := by
  refine ⟨rfl, ?_, by simp [motion_present]⟩
  intro a
  simp [filter_contours, threshold_comparison]

/-! ## Temporal stabilizer (src/face_recognition_module.py) -/

/-- Window length: `self.history_length = 5`. -/
def history_length : ℕ := 5

/-- Minimum history before voting: `self.min_confidence_frames = 3`. -/
def min_confidence_frames : ℕ := 3

/-- Mirrors `int(np.median(face_counts))` on a nonempty list of natural
counts: sort ascending; an odd-length list yields the middle element, an
even-length list the truncated average of the two middle elements (the
float average is exact on these integers, and `int` truncates toward
zero, i.e. floors a nonnegative value). -/
def medianNat (l : List ℕ) : ℕ :=
  let s := List.insertionSort (fun a b => a ≤ b) l
  let n := s.length
  if n % 2 = 1 then s.getD (n / 2) 0
  else (s.getD (n / 2 - 1) 0 + s.getD (n / 2) 0) / 2

/-- Smoothing state of a `FaceRecognitionSystem`: the sliding history of
raw observations (names, locations) - the stored `count` field is always
`len(names)` - and the last accepted stable result. -/
structure FaceTrack (α β : Type) where
  face_history : List (List α × List β)
  last_stable_names : List α
  last_stable_faces : List β
deriving DecidableEq

/-- The history after appending the current observation and popping the
front when the window length is exceeded, as at the top of
`_apply_temporal_smoothing`. -/
def trimmed_history (s : FaceTrack α β) (names : List α) (locations : List β) :
    List (List α × List β) :=
  if history_length < (s.face_history ++ [(names, locations)]).length then
    (s.face_history ++ [(names, locations)]).drop 1
  else s.face_history ++ [(names, locations)]

/-- Mirrors `FaceRecognitionSystem._apply_temporal_smoothing`: returns the
updated smoothing state and the (names, locations) result returned to the
caller. -/
def apply_temporal_smoothing (s : FaceTrack α β) (names : List α)
    (locations : List β) : FaceTrack α β × (List α × List β) :=
  let hist := trimmed_history s names locations
  if hist.length < min_confidence_frames then
    ({ face_history := hist, last_stable_names := names
       last_stable_faces := locations }, (names, locations))
  else
    let stable_count := medianNat (hist.map (fun fd => fd.1.length))
    if ((names.length : ℤ) - (stable_count : ℤ)).natAbs ≤ 1 then
      ({ face_history := hist, last_stable_names := names
         last_stable_faces := locations }, (names, locations))
    else
      ({ face_history := hist, last_stable_names := s.last_stable_names
         last_stable_faces := s.last_stable_faces },
        (s.last_stable_names, s.last_stable_faces))

/-- A sequence of smoothing calls, keeping only the updated state. -/
def run_smoothing (s : FaceTrack α β) : List (List α × List β) → FaceTrack α β
  | [] => s
  | o :: rest => run_smoothing (apply_temporal_smoothing s o.1 o.2).1 rest

/-- C4: once the (appended and trimmed) history holds at least 3
observations, the raw observation is accepted as the new stable result
exactly when its count differs from the (truncated) median count over the
window by at most 1, and otherwise the previous stable result is returned
unchanged; in particular on the raw count sequence [0,0,0,5,0] the 4th
observation (count 5, median 0) is rejected and the output remains the
prior stable value. -/
theorem temporal_smoothing_spec :
    (∀ (s : FaceTrack ℕ ℕ) (names locs : List ℕ),
      min_confidence_frames ≤ (trimmed_history s names locs).length →
      ((((names.length : ℤ) -
          (medianNat ((trimmed_history s names locs).map
            (fun fd => fd.1.length)) : ℤ)).natAbs ≤ 1 →
        apply_temporal_smoothing s names locs =
          ({ face_history := trimmed_history s names locs
             last_stable_names := names
             last_stable_faces := locs }, (names, locs))) ∧
       (¬ (((names.length : ℤ) -
          (medianNat ((trimmed_history s names locs).map
            (fun fd => fd.1.length)) : ℤ)).natAbs ≤ 1) →
        apply_temporal_smoothing s names locs =
          ({ face_history := trimmed_history s names locs
             last_stable_names := s.last_stable_names
             last_stable_faces := s.last_stable_faces },
            (s.last_stable_names, s.last_stable_faces))))) ∧
    ((apply_temporal_smoothing
        (run_smoothing (⟨[], [], []⟩ : FaceTrack ℕ ℕ)
          [([], []), ([], []), ([], [])])
        [1, 2, 3, 4, 5] []).2 = ([], []) ∧
     (run_smoothing (⟨[], [], []⟩ : FaceTrack ℕ ℕ)
        [([], []), ([], []), ([], [])]).last_stable_names = [] ∧
     (apply_temporal_smoothing
        (run_smoothing (⟨[], [], []⟩ : FaceTrack ℕ ℕ)
          [([], []), ([], []), ([], [])])
        [1, 2, 3, 4, 5] []).1.last_stable_names = []) := by
  constructor
  · intro s names locs hlen
    constructor
    · intro hcond
      simp only [apply_temporal_smoothing]
      rw [if_neg (by omega), if_pos hcond]
    · intro hcond
      simp only [apply_temporal_smoothing]
      rw [if_neg (by omega), if_neg hcond]
  · refine ⟨by decide, by decide, by decide⟩

/-! ## Circular frame buffer (src/memory_management.py, CircularFrameBuffer) -/

/-- The mutable state of a `CircularFrameBuffer` object. A Python `None`
slot is `none`; a stored frame `f` is `some f` (the `frame.copy()` deep
copy is the identity on values). -/
structure CFB (α : Type) where
  capacity : ℕ
  buffer : List (Option α)
  head : ℕ
  tail : ℕ
  size : ℕ
  write_count : ℕ
  read_count : ℕ
  overflow_count : ℕ
deriving DecidableEq, Repr

/-- Mirrors `CircularFrameBuffer.__init__`: `[None] * capacity`, all
cursors and counters zero. There is no capacity validation. -/
def initCFB {α : Type} (capacity : ℕ) : CFB α :=
  { capacity := capacity
    buffer := List.replicate capacity none
    head := 0
    tail := 0
    size := 0
    write_count := 0
    read_count := 0
    overflow_count := 0 }

/-- Mirrors `CircularFrameBuffer.write`. With capacity 0 the Python call
raises (`(tail + 1) % 0` is a ZeroDivisionError in the overflow branch,
which capacity 0 always takes since `size == capacity == 0`), modeled as
`none`; otherwise it returns the Python result `True` and the new state. -/
def CFB.write (b : CFB α) (frame : α) : Option (Bool × CFB α) :=
  if b.capacity = 0 then none
  else if b.size = b.capacity then
    some (true,
      { b with
        overflow_count := b.overflow_count + 1
        tail := (b.tail + 1) % b.capacity
        buffer := b.buffer.set b.head (some frame)
        head := (b.head + 1) % b.capacity
        size := b.size - 1 + 1
        write_count := b.write_count + 1 })
  else
    some (true,
      { b with
        buffer := b.buffer.set b.head (some frame)
        head := (b.head + 1) % b.capacity
        size := b.size + 1
        write_count := b.write_count + 1 })

/-- Mirrors `CircularFrameBuffer.read`: underflow returns the `None`
sentinel and leaves the state unchanged. -/
def CFB.read (b : CFB α) : Option α × CFB α :=
  if b.size = 0 then (none, b)
  else
    (b.buffer.getD b.tail none,
      { b with
        buffer := b.buffer.set b.tail none
        tail := (b.tail + 1) % b.capacity
        size := b.size - 1
        read_count := b.read_count + 1 })

/-- Mirrors `CircularFrameBuffer.get_latest`: the most recent write
position is `(head - 1) % capacity`, with Python's nonnegative modulo on a
possibly negative left operand. -/
def CFB.get_latest (b : CFB α) : Option α :=
  if b.size = 0 then none
  else b.buffer.getD (((b.head : ℤ) - 1) % (b.capacity : ℤ)).toNat none

/-- The live FIFO contents of the buffer, oldest first: `size` slots
starting at the read cursor. -/
def CFB.queue (b : CFB α) : List (Option α) :=
  (List.range b.size).map (fun i => b.buffer.getD ((b.tail + i) % b.capacity) none)

/-- A sequence of `write` calls; `none` if any call raises. -/
def CFB.writeAll (b : CFB α) : List α → Option (CFB α)
  | [] => some b
  | f :: rest =>
    match b.write f with
    | none => none
    | some r => r.2.writeAll rest

/-- `n` consecutive `read` calls, returning the values read in order. -/
def CFB.readAll (b : CFB α) : ℕ → List (Option α) × CFB α
  | 0 => ([], b)
  | n + 1 =>
    let r := b.read
    let rest := r.2.readAll n
    (r.1 :: rest.1, rest.2)

/-- Structural invariant of every reachable buffer with positive
capacity. -/
def CFB.Inv (b : CFB α) : Prop :=
  b.buffer.length = b.capacity ∧ b.tail < b.capacity ∧ b.size ≤ b.capacity ∧
  b.head = (b.tail + b.size) % b.capacity ∧ 1 ≤ b.capacity

theorem cfb_inv_init {α : Type} (N : ℕ) (hN : 1 ≤ N) :
    (initCFB N : CFB α).Inv := by
  refine ⟨by simp [initCFB], by simpa [initCFB] using hN, by simp [initCFB],
    by simp [initCFB], by simpa [initCFB] using hN⟩

theorem cfb_queue_length (b : CFB α) : b.queue.length = b.size := by
  simp [CFB.queue]

/-- Addition of distinct small offsets to a cursor stays distinct mod the
capacity. -/
theorem mod_add_inj (t i j c : ℕ) (hi : i < c) (hj : j < c)
    (h : (t + i) % c = (t + j) % c) : i = j := by
  have h2 : i ≡ j [MOD c] := Nat.ModEq.add_left_cancel' t h
  have h3 : i % c = j % c := h2
  rw [Nat.mod_eq_of_lt hi, Nat.mod_eq_of_lt hj] at h3
  exact h3

theorem getD_set_ne (l : List α) (i j : ℕ) (a d : α) (h : i ≠ j) :
    (l.set i a).getD j d = l.getD j d := by
  simp [List.getD_eq_getElem?_getD, List.getElem?_set_ne h]

theorem getD_set_self (l : List α) (i : ℕ) (a d : α) (h : i < l.length) :
    (l.set i a).getD i d = a := by
  simp [List.getD_eq_getElem?_getD, List.getElem?_set_self, h]

theorem cfb_queue_getD (b : CFB α) (i : ℕ) (hi : i < b.size) :
    b.queue.getD i none = b.buffer.getD ((b.tail + i) % b.capacity) none := by
  simp [CFB.queue, List.getD_eq_getElem?_getD, List.getElem?_range, hi]

theorem cfb_write_not_full (b : CFB α) (x : α) (hI : b.Inv)
    (hs : b.size < b.capacity) :
    ∃ b' : CFB α, b.write x = some (true, b') ∧ b'.Inv ∧
      b'.queue = b.queue ++ [some x] ∧
      b'.capacity = b.capacity ∧ b'.size = b.size + 1 ∧
      b'.write_count = b.write_count + 1 ∧ b'.read_count = b.read_count ∧
      b'.overflow_count = b.overflow_count ∧ b'.tail = b.tail := by
  obtain ⟨hlen, htail, hsz, hhead, hcap⟩ := hI
  have hc0 : ¬ b.capacity = 0 := by omega
  have hne : ¬ b.size = b.capacity := by omega
  refine ⟨{ b with
      buffer := b.buffer.set b.head (some x)
      head := (b.head + 1) % b.capacity
      size := b.size + 1
      write_count := b.write_count + 1 }, ?_, ?_, ?_, rfl, rfl, rfl, rfl,
      rfl, rfl⟩
  · unfold CFB.write
    rw [if_neg hc0, if_neg hne]
  · refine ⟨by simp [hlen], htail, ?_, ?_, hcap⟩
    · show b.size + 1 ≤ b.capacity
      omega
    · show (b.head + 1) % b.capacity = (b.tail + (b.size + 1)) % b.capacity
      rw [hhead, Nat.mod_add_mod, Nat.add_assoc]
  · show (List.range (b.size + 1)).map
        (fun i => (b.buffer.set b.head (some x)).getD
          ((b.tail + i) % b.capacity) none) =
      b.queue ++ [some x]
    rw [List.range_succ, List.map_append, List.map_singleton]
    congr 1
    · apply List.map_congr_left
      intro i hi
      rw [List.mem_range] at hi
      apply getD_set_ne
      rw [hhead]
      intro heq
      have := mod_add_inj b.tail b.size i b.capacity hs (by omega) heq
      omega
    · have hidx : (b.tail + b.size) % b.capacity = b.head := hhead.symm
      rw [hidx]
      rw [getD_set_self]
      rw [hlen, hhead]
      exact Nat.mod_lt _ (by omega)

theorem cfb_write_full (b : CFB α) (x : α) (hI : b.Inv)
    (hs : b.size = b.capacity) :
    ∃ b' : CFB α, b.write x = some (true, b') ∧ b'.Inv ∧
      b'.queue = b.queue.drop 1 ++ [some x] ∧
      b'.capacity = b.capacity ∧ b'.size = b.size ∧
      b'.write_count = b.write_count + 1 ∧ b'.read_count = b.read_count ∧
      b'.overflow_count = b.overflow_count + 1 := by
  obtain ⟨hlen, htail, hsz, hhead, hcap⟩ := hI
  have hc0 : ¬ b.capacity = 0 := by omega
  have hht : b.head = b.tail := by
    rw [hhead, hs, Nat.add_mod_right, Nat.mod_eq_of_lt htail]
  refine ⟨{ b with
      overflow_count := b.overflow_count + 1
      tail := (b.tail + 1) % b.capacity
      buffer := b.buffer.set b.head (some x)
      head := (b.head + 1) % b.capacity
      size := b.size - 1 + 1
      write_count := b.write_count + 1 }, ?_, ?_, ?_, rfl, ?_, rfl,
      rfl, rfl⟩
  · unfold CFB.write
    rw [if_neg hc0, if_pos hs]
  · refine ⟨by simp [hlen], ?_, ?_, ?_, hcap⟩
    · show (b.tail + 1) % b.capacity < b.capacity
      exact Nat.mod_lt _ (by omega)
    · show b.size - 1 + 1 ≤ b.capacity
      omega
    · show (b.head + 1) % b.capacity =
        ((b.tail + 1) % b.capacity + (b.size - 1 + 1)) % b.capacity
      rw [Nat.mod_add_mod, hht]
      have hsz2 : b.tail + 1 + (b.size - 1 + 1) = b.tail + 1 + b.capacity := by
        omega
      rw [hsz2, Nat.add_mod_right]
  · obtain ⟨m, hm⟩ : ∃ m, b.size = m + 1 := ⟨b.size - 1, by omega⟩
    show (List.range (b.size - 1 + 1)).map
        (fun i => (b.buffer.set b.head (some x)).getD
          (((b.tail + 1) % b.capacity + i) % b.capacity) none) =
      b.queue.drop 1 ++ [some x]
    have hq : b.queue = (fun i => b.buffer.getD ((b.tail + i) % b.capacity)
        none) 0 :: (List.range m).map
        ((fun i => b.buffer.getD ((b.tail + i) % b.capacity) none) ∘
          Nat.succ) := by
      rw [CFB.queue, hm, List.range_succ_eq_map]
      simp
    rw [hq]
    simp only [List.drop_succ_cons, List.drop_zero]
    have hsub : b.size - 1 + 1 = m + 1 := by omega
    rw [hsub, List.range_succ, List.map_append, List.map_singleton]
    congr 1
    · apply List.map_congr_left
      intro i hi
      rw [List.mem_range] at hi
      have hidx : ((b.tail + 1) % b.capacity + i) % b.capacity =
          (b.tail + (i + 1)) % b.capacity := by
        rw [Nat.mod_add_mod]
        congr 1
        omega
      rw [hidx]
      have hne2 : b.head ≠ (b.tail + (i + 1)) % b.capacity := by
        rw [hht]
        intro heq
        have heq2 : (b.tail + 0) % b.capacity =
            (b.tail + (i + 1)) % b.capacity := by
          rw [Nat.add_zero, Nat.mod_eq_of_lt htail]
          exact heq
        have := mod_add_inj b.tail 0 (i + 1) b.capacity (by omega)
          (by omega) heq2
        omega
      rw [getD_set_ne _ _ _ _ _ hne2]
      simp only [Function.comp_apply]
    · have hidx : ((b.tail + 1) % b.capacity + m) % b.capacity = b.head := by
        rw [Nat.mod_add_mod, hht]
        have hh2 : b.tail + 1 + m = b.tail + b.capacity := by omega
        rw [hh2, Nat.add_mod_right, Nat.mod_eq_of_lt htail]
      rw [hidx, getD_set_self]
      rw [hlen, hht]
      exact htail
  · show b.size - 1 + 1 = b.size
    omega

theorem cfb_read_step (b : CFB α) (hI : b.Inv) (hs : 1 ≤ b.size) :
    ∃ b' : CFB α, b.read = (b.queue.getD 0 none, b') ∧ b'.Inv ∧
      b'.queue = b.queue.drop 1 ∧ b'.size = b.size - 1 ∧
      b'.capacity = b.capacity ∧ b'.read_count = b.read_count + 1 ∧
      b'.write_count = b.write_count ∧
      b'.overflow_count = b.overflow_count := by
  obtain ⟨hlen, htail, hsz, hhead, hcap⟩ := hI
  have hc0 : ¬ b.size = 0 := by omega
  refine ⟨{ b with
      buffer := b.buffer.set b.tail none
      tail := (b.tail + 1) % b.capacity
      size := b.size - 1
      read_count := b.read_count + 1 }, ?_, ?_, ?_, rfl, rfl, rfl, rfl, rfl⟩
  · unfold CFB.read
    rw [if_neg hc0]
    have h0 : b.queue.getD 0 none = b.buffer.getD b.tail none := by
      rw [cfb_queue_getD b 0 (by omega), Nat.add_zero,
        Nat.mod_eq_of_lt htail]
    rw [h0]
  · refine ⟨by simp [hlen], Nat.mod_lt _ (by omega), ?_, ?_, hcap⟩
    · show b.size - 1 ≤ b.capacity
      omega
    · show (b.head : ℕ) = ((b.tail + 1) % b.capacity + (b.size - 1)) %
        b.capacity
      rw [Nat.mod_add_mod, hhead]
      congr 1
      omega
  · obtain ⟨m, hm⟩ : ∃ m, b.size = m + 1 := ⟨b.size - 1, by omega⟩
    show (List.range (b.size - 1)).map
        (fun i => (b.buffer.set b.tail none).getD
          (((b.tail + 1) % b.capacity + i) % b.capacity) none) =
      b.queue.drop 1
    have hq : b.queue = (fun i => b.buffer.getD ((b.tail + i) % b.capacity)
        none) 0 :: (List.range m).map
        ((fun i => b.buffer.getD ((b.tail + i) % b.capacity) none) ∘
          Nat.succ) := by
      rw [CFB.queue, hm, List.range_succ_eq_map]
      simp
    rw [hq]
    simp only [List.drop_succ_cons, List.drop_zero]
    have hsub : b.size - 1 = m := by omega
    rw [hsub]
    apply List.map_congr_left
    intro i hi
    rw [List.mem_range] at hi
    have hidx : ((b.tail + 1) % b.capacity + i) % b.capacity =
        (b.tail + (i + 1)) % b.capacity := by
      rw [Nat.mod_add_mod]
      congr 1
      omega
    rw [hidx]
    have hne2 : b.tail ≠ (b.tail + (i + 1)) % b.capacity := by
      intro heq
      have heq2 : (b.tail + 0) % b.capacity =
          (b.tail + (i + 1)) % b.capacity := by
        rw [Nat.add_zero, Nat.mod_eq_of_lt htail]
        exact heq
      have := mod_add_inj b.tail 0 (i + 1) b.capacity (by omega)
        (by omega) heq2
      omega
    rw [getD_set_ne _ _ _ _ _ hne2]
    simp only [Function.comp_apply]

theorem cfb_writeAll_spec : ∀ (fs : List α) (b : CFB α), b.Inv →
    ∃ b' : CFB α, b.writeAll fs = some b' ∧ b'.Inv ∧
      b'.capacity = b.capacity ∧
      b'.size = min (b.size + fs.length) b.capacity ∧
      b'.write_count = b.write_count + fs.length ∧
      b'.read_count = b.read_count ∧
      b'.overflow_count =
        b.overflow_count + (b.size + fs.length - b.capacity) ∧
      b'.queue =
        (b.queue ++ fs.map some).drop (b.size + fs.length - b.capacity) := by
  intro fs
  induction fs with
  | nil =>
    intro b hI
    obtain ⟨hlen, htail, hsz, hhead, hcap⟩ := hI
    refine ⟨b, rfl, ⟨hlen, htail, hsz, hhead, hcap⟩, rfl, ?_, by simp, rfl,
      ?_, ?_⟩
    · simp only [List.length_nil, Nat.add_zero]
      omega
    · simp only [List.length_nil, Nat.add_zero]
      omega
    · simp only [List.length_nil, Nat.add_zero, List.map_nil,
        List.append_nil]
      have h0 : b.size - b.capacity = 0 := by omega
      rw [h0, List.drop_zero]
  | cons f fs ih =>
    intro b hI
    have hsz := hI.2.2.1
    have hcap := hI.2.2.2.2
    by_cases hfull : b.size = b.capacity
    · obtain ⟨b1, hw, hI1, hq1, hcap1, hsz1, hwc1, hrc1, hoc1⟩ :=
        cfb_write_full b f hI hfull
      obtain ⟨b', hwa, hI', hcap', hsz', hwc', hrc', hoc', hq'⟩ := ih b1 hI1
      refine ⟨b', ?_, hI', by rw [hcap', hcap1], ?_, ?_, ?_, ?_, ?_⟩
      · simp only [CFB.writeAll, hw]
        exact hwa
      · rw [hsz', hsz1, hcap1]
        simp only [List.length_cons]
        omega
      · rw [hwc', hwc1]
        simp only [List.length_cons]
        omega
      · rw [hrc', hrc1]
      · rw [hoc', hoc1, hsz1, hcap1]
        simp only [List.length_cons]
        omega
      · rw [hq', hq1, hsz1, hcap1]
        have hqlen : b.queue.length = b.capacity := by
          rw [cfb_queue_length, hfull]
        have hqne : b.queue ≠ [] := by
          intro h
          rw [h] at hqlen
          simp at hqlen
          omega
        obtain ⟨a, q', hq⟩ := List.exists_cons_of_ne_nil hqne
        rw [hq]
        simp only [List.map_cons, List.length_cons, List.drop_succ_cons,
          List.cons_append]
        have hc1 : b.size + fs.length - b.capacity = fs.length := by omega
        have hc2 : b.size + (fs.length + 1) - b.capacity = fs.length + 1 := by
          omega
        rw [hc1, hc2]
        simp only [List.drop_succ_cons, List.drop_zero, List.append_assoc,
          List.singleton_append]
    · have hlt : b.size < b.capacity := by omega
      obtain ⟨b1, hw, hI1, hq1, hcap1, hsz1, hwc1, hrc1, hoc1, htl1⟩ :=
        cfb_write_not_full b f hI hlt
      obtain ⟨b', hwa, hI', hcap', hsz', hwc', hrc', hoc', hq'⟩ := ih b1 hI1
      refine ⟨b', ?_, hI', by rw [hcap', hcap1], ?_, ?_, ?_, ?_, ?_⟩
      · simp only [CFB.writeAll, hw]
        exact hwa
      · rw [hsz', hsz1, hcap1]
        simp only [List.length_cons]
        omega
      · rw [hwc', hwc1]
        simp only [List.length_cons]
        omega
      · rw [hrc', hrc1]
      · rw [hoc', hoc1, hsz1, hcap1]
        simp only [List.length_cons]
        omega
      · rw [hq', hq1, hsz1, hcap1]
        simp only [List.map_cons, List.length_cons]
        have hc1 : b.size + 1 + fs.length - b.capacity =
            b.size + (fs.length + 1) - b.capacity := by omega
        rw [hc1]
        simp only [List.append_assoc, List.singleton_append]

/-- Python's `(head - 1) % capacity` on the predecessor of a cursor:
for `A ≥ 1` and `c ≥ 1`, the Int-emod expression equals `(A - 1) % c`
where `head = A % c`. -/
theorem int_pred_mod (A c : ℕ) (hA : 1 ≤ A) (hc : 1 ≤ c) :
    ((((A % c : ℕ) : ℤ) - 1) % (c : ℤ)).toNat = (A - 1) % c := by
  by_cases hz : A % c = 0
  · rw [hz]
    have h1 : ((-1 : ℤ)) % (c : ℤ) = (c : ℤ) - 1 := by
      have h2 : ((-1 : ℤ) + (c : ℤ) * 1) % (c : ℤ) = (-1 : ℤ) % (c : ℤ) :=
        Int.add_mul_emod_self_left (-1) (c : ℤ) 1
      have h3 : ((-1 : ℤ) + (c : ℤ) * 1) = (c : ℤ) - 1 := by ring
      rw [h3] at h2
      rw [← h2]
      exact Int.emod_eq_of_lt (by omega) (by omega)
    have h4 : (((0 : ℕ) : ℤ) - 1) = (-1 : ℤ) := by simp
    rw [h4, h1]
    obtain ⟨q, hq⟩ := Nat.dvd_of_mod_eq_zero hz
    have hq1 : 1 ≤ q := by
      by_contra hq0
      have hq00 : q = 0 := by omega
      rw [hq00, Nat.mul_zero] at hq
      omega
    have hmul : c * q = c * (q - 1) + c := by
      have hq2 : q = (q - 1) + 1 := by omega
      calc c * q = c * ((q - 1) + 1) := by rw [← hq2]
      _ = c * (q - 1) + c * 1 := by rw [Nat.mul_add]
      _ = c * (q - 1) + c := by rw [Nat.mul_one]
    have h5 : A - 1 = c * (q - 1) + (c - 1) := by omega
    rw [h5, Nat.mul_add_mod, Nat.mod_eq_of_lt (by omega)]
    omega
  · have hlt : A % c < c := Nat.mod_lt _ (by omega)
    have h1 : (((A % c : ℕ) : ℤ) - 1) % (c : ℤ) = ((A % c : ℕ) : ℤ) - 1 := by
      apply Int.emod_eq_of_lt
      · omega
      · omega
    rw [h1]
    have h2 : A - 1 = c * (A / c) + (A % c - 1) := by
      have h3 := Nat.div_add_mod A c
      omega
    rw [h2, Nat.mul_add_mod]
    rw [Nat.mod_eq_of_lt (show A % c - 1 < c by omega)]
    omega

theorem cfb_get_latest_eq (b : CFB α) (hI : b.Inv) (hs : 1 ≤ b.size) :
    b.get_latest = b.queue.getD (b.size - 1) none := by
  obtain ⟨hlen, htail, hsz, hhead, hcap⟩ := hI
  rw [cfb_queue_getD b (b.size - 1) (by omega)]
  unfold CFB.get_latest
  rw [if_neg (by omega)]
  congr 1
  rw [hhead]
  have h1 : b.tail + (b.size - 1) = b.tail + b.size - 1 := by omega
  rw [h1]
  exact int_pred_mod (b.tail + b.size) b.capacity (by omega) (by omega)

theorem cfb_readAll_queue : ∀ (n : ℕ) (b : CFB α), b.Inv → b.size = n →
    (b.readAll n).1 = b.queue := by
  intro n
  induction n with
  | zero =>
    intro b _ h0
    have hq : b.queue.length = 0 := by rw [cfb_queue_length, h0]
    rw [List.length_eq_zero] at hq
    simp [CFB.readAll, hq]
  | succ m ih =>
    intro b hI hsz
    obtain ⟨b1, hread, hI1, hq1, hsz1, _, _, _, _⟩ :=
      cfb_read_step b hI (by omega)
    show (b.readAll (m + 1)).1 = b.queue
    simp only [CFB.readAll]
    rw [hread]
    simp only
    rw [ih b1 hI1 (by omega), hq1]
    have hqlen : b.queue.length = m + 1 := by rw [cfb_queue_length, hsz]
    have hqne : b.queue ≠ [] := by
      intro h
      rw [h] at hqlen
      simp at hqlen
    obtain ⟨a, q', hq⟩ := List.exists_cons_of_ne_nil hqne
    rw [hq]
    simp [List.getD]

/-- C2: writing M > N items into a fresh buffer of capacity N ≥ 1 leaves
`size = N`, `overflow_count = M - N`, and `get_latest` equal to the last
written item; moreover each overflowing write (the j-th write for j ≥ N)
drops the oldest queue element, appends the new one, keeps the count at N
and increments (of the read/overflow counters) only the overflow
counter. -/
theorem ring_buffer_overflow_spec {α : Type} (N : ℕ) (fs : List α)
    (hN : 1 ≤ N) (hM : N < fs.length) :
    ∃ b : CFB α, CFB.writeAll (initCFB N) fs = some b ∧
      b.size = N ∧ b.overflow_count = fs.length - N ∧
      b.get_latest = fs.getLast? ∧
      (∀ j, N ≤ j → j < fs.length →
        ∃ (bj bj1 : CFB α) (y : α) (rest : List α),
          CFB.writeAll (initCFB N) (fs.take j) = some bj ∧
          fs.drop j = y :: rest ∧
          bj.write y = some (true, bj1) ∧
          bj.size = N ∧ bj1.size = N ∧
          bj1.overflow_count = bj.overflow_count + 1 ∧
          bj1.read_count = bj.read_count ∧
          bj1.queue = bj.queue.drop 1 ++ [some y]) := by
  have hI0 : (initCFB N : CFB α).Inv := cfb_inv_init N hN
  obtain ⟨b, hwa, hI, hcap, hsz, hwc, hrc, hoc, hq⟩ :=
    cfb_writeAll_spec fs (initCFB N) hI0
  have hsz' : b.size = N := by
    simp only [initCFB] at hsz
    omega
  have hoc' : b.overflow_count = fs.length - N := by
    simp only [initCFB] at hoc
    omega
  have hq0 : (initCFB N : CFB α).queue = [] := by
    simp [CFB.queue, initCFB]
  have hq' : b.queue = (fs.map some).drop (fs.length - N) := by
    rw [hq0, List.nil_append] at hq
    simp only [initCFB] at hq
    simpa using hq
  refine ⟨b, hwa, hsz', hoc', ?_, ?_⟩
  · have hlat := cfb_get_latest_eq b hI (by omega)
    rw [hq', hsz'] at hlat
    have hidx : fs.length - N + (N - 1) = fs.length - 1 := by omega
    obtain ⟨x, hx⟩ : ∃ x, fs[fs.length - 1]? = some x := by
      have hl : fs.length - 1 < fs.length := by omega
      exact ⟨_, List.getElem?_eq_getElem hl⟩
    calc b.get_latest
        = ((fs.map some).drop (fs.length - N)).getD (N - 1) none := hlat
      _ = ((fs.map some)[fs.length - N + (N - 1)]?).getD none := by
          rw [List.getD_eq_getElem?_getD, List.getElem?_drop]
      _ = ((fs[fs.length - 1]?).map some).getD none := by
          rw [hidx, List.getElem?_map]
      _ = fs[fs.length - 1]? := by rw [hx]; rfl
      _ = fs.getLast? := (List.getLast?_eq_getElem? fs).symm
  · intro j hjN hjlen
    obtain ⟨bj, hwaj, hIj, hcapj, hszj, _, _, _, _⟩ :=
      cfb_writeAll_spec (fs.take j) (initCFB N) hI0
    have hszj' : bj.size = N := by
      simp only [initCFB, List.length_take] at hszj
      omega
    have hcapj' : bj.capacity = N := hcapj
    have hdne : fs.drop j ≠ [] := by
      intro hnil
      have hlen2 := congrArg List.length hnil
      rw [List.length_drop] at hlen2
      simp at hlen2
      omega
    obtain ⟨y, rest, hyr⟩ := List.exists_cons_of_ne_nil hdne
    obtain ⟨bj1, hwj, hIj1, hqj1, hcapj1, hszj1, hwcj1, hrcj1, hocj1⟩ :=
      cfb_write_full bj y hIj (by rw [hszj', hcapj'])
    exact ⟨bj, bj1, y, rest, hwaj, hyr, hwj, hszj',
      by rw [hszj1, hszj'], hocj1, hrcj1, hqj1⟩

/-- Witness for C2: capacity 2, writes [10, 20, 30]. -/
theorem ring_buffer_overflow_spec_witness :
    (1 ≤ 2) ∧ (2 < [10, 20, 30].length) ∧
    ∃ b : CFB ℕ, CFB.writeAll (initCFB 2) [10, 20, 30] = some b ∧
      b.size = 2 ∧ b.overflow_count = 1 ∧ b.get_latest = some 30 := by
  obtain ⟨b, h1, h2, h3, h4, _⟩ :=
    ring_buffer_overflow_spec 2 [10, 20, 30] (by decide) (by decide)
  exact ⟨by decide, by decide, b, h1, h2, by simpa using h3,
    by simpa using h4⟩

/-- C9: writing exactly N frames into a fresh buffer of capacity N ≥ 1 and
then reading N times returns exactly those frames, in write order, with no
frame dropped or duplicated. -/
theorem ring_buffer_roundtrip {α : Type} (N : ℕ) (fs : List α) (hN : 1 ≤ N)
    (hlen : fs.length = N) :
    ∃ b : CFB α, CFB.writeAll (initCFB N) fs = some b ∧
      (b.readAll N).1 = fs.map some := by
  have hI0 : (initCFB N : CFB α).Inv := cfb_inv_init N hN
  obtain ⟨b, hwa, hI, hcap, hsz, _, _, _, hq⟩ :=
    cfb_writeAll_spec fs (initCFB N) hI0
  have hsz' : b.size = N := by
    simp only [initCFB] at hsz
    omega
  have hq0 : (initCFB N : CFB α).queue = [] := by
    simp [CFB.queue, initCFB]
  have hq' : b.queue = fs.map some := by
    rw [hq0, List.nil_append] at hq
    simp only [initCFB] at hq
    have h0 : 0 + fs.length - N = 0 := by omega
    rw [h0, List.drop_zero] at hq
    exact hq
  refine ⟨b, hwa, ?_⟩
  rw [cfb_readAll_queue N b hI hsz', hq']

/-- Witness for C9: capacity 2, frames [5, 7]. -/
theorem ring_buffer_roundtrip_witness :
    (1 ≤ 2) ∧ ([5, 7] : List ℕ).length = 2 ∧
    ∃ b : CFB ℕ, CFB.writeAll (initCFB 2) [5, 7] = some b ∧
      (b.readAll 2).1 = [some 5, some 7] := by
  obtain ⟨b, h1, h2⟩ := ring_buffer_roundtrip 2 [5, 7] (by decide) (by decide)
  exact ⟨by decide, by decide, b, h1, h2⟩

/-! ## LRU cache (src/memory_management.py, LRUCache) -/

/-- The mutable state of an `LRUCache` object. The Python `OrderedDict` is
an association list with unique keys, front = least recently used, back =
most recently used. -/
structure LRUCache (β : Type) where
  capacity : ℕ
  cache : List (String × β)
  hit_count : ℕ
  miss_count : ℕ
  eviction_count : ℕ
  access_count : ℕ
deriving DecidableEq, Repr

/-- Mirrors `LRUCache.__init__`: empty ordered map, zero counters. There
is no capacity validation. -/
def initLRU {β : Type} (capacity : ℕ) : LRUCache β :=
  { capacity := capacity
    cache := []
    hit_count := 0
    miss_count := 0
    eviction_count := 0
    access_count := 0 }

/-- Key lookup in the ordered map (`key in self.cache` / `self.cache[key]`;
keys are unique in an `OrderedDict`). -/
def lookupKey : List (String × β) → String → Option β
  | [], _ => none
  | p :: t, k => if p.1 = k then some p.2 else lookupKey t k

/-- Removal of the entry with the given key, as the first half of
`OrderedDict.move_to_end` (the entry is re-appended at the back). -/
def removeKey : List (String × β) → String → List (String × β)
  | [], _ => []
  | p :: t, k => if p.1 = k then t else p :: removeKey t k

/-- The key list of an ordered map, in recency order. -/
def keysOf (c : List (String × β)) : List String := c.map Prod.fst

/-- Mirrors `LRUCache.get`: a hit moves the key to the most-recently-used
end and bumps the hit counter, a miss bumps the miss counter; both bump
the access counter. -/
def LRUCache.get (c : LRUCache β) (key : String) : Option β × LRUCache β :=
  match lookupKey c.cache key with
  | some v =>
    (some v,
      { c with
        cache := removeKey c.cache key ++ [(key, v)]
        hit_count := c.hit_count + 1
        access_count := c.access_count + 1 })
  | none =>
    (none,
      { c with
        miss_count := c.miss_count + 1
        access_count := c.access_count + 1 })

/-- Mirrors `LRUCache.put`: an existing key is moved to the back and its
value replaced (no eviction); a new key first evicts the front entry when
`len(cache) >= capacity` (bumping the eviction counter) and is then
appended. `popitem(last=False)` on an empty map raises KeyError, modeled
as `none` (reachable exactly when the capacity is 0). -/
def LRUCache.put (c : LRUCache β) (key : String) (v : β) :
    Option (LRUCache β) :=
  match lookupKey c.cache key with
  | some _ => some { c with cache := removeKey c.cache key ++ [(key, v)] }
  | none =>
    if c.capacity ≤ c.cache.length then
      match c.cache with
      | [] => none
      | _ :: t =>
        some { c with
          cache := t ++ [(key, v)]
          eviction_count := c.eviction_count + 1 }
    else some { c with cache := c.cache ++ [(key, v)] }

/-- One externally visible cache operation. -/
inductive LRUOp (β : Type) where
  | get (key : String)
  | put (key : String) (v : β)

/-- The state transformation of one operation (the value returned by `get`
is dropped). -/
def stepOp (c : LRUCache β) : LRUOp β → Option (LRUCache β)
  | .get k => some (c.get k).2
  | .put k v => c.put k v

/-- A sequence of operations; `none` if any operation raises. -/
def runOps (c : LRUCache β) : List (LRUOp β) → Option (LRUCache β)
  | [] => some c
  | o :: rest =>
    match stepOp c o with
    | none => none
    | some c' => runOps c' rest

/-- Whether an operation touches the key `x` (a `get` hit and a `put` both
promote the key to most recently used). -/
def touchesOp (x : String) : LRUOp β → Bool
  | .get key => key = x
  | .put key _ => key = x

/-- Distance (counting from the END of the reversed list, i.e. 0 = the
most recent operation) of the last operation touching the key. -/
def lastTouchRev : List (LRUOp β) → String → Option ℕ
  | [], _ => none
  | o :: t, k => if touchesOp k o then some 0 else (lastTouchRev t k).map (· + 1)

/-- How long ago the key was last touched: `some 0` means the very last
operation touched it; `none` means no operation ever touched it. -/
def lastTouch (ops : List (LRUOp β)) (k : String) : Option ℕ :=
  lastTouchRev ops.reverse k

/-- `a` was last touched strictly longer ago than `b` (so `a` is less
recently used than `b`). -/
def TouchedBefore (ops : List (LRUOp β)) (a b : String) : Prop :=
  ∃ da db, lastTouch ops a = some da ∧ lastTouch ops b = some db ∧ db < da

theorem lastTouch_append (ops : List (LRUOp β)) (o : LRUOp β) (k : String) :
    lastTouch (ops ++ [o]) k =
      if touchesOp k o then some 0 else (lastTouch ops k).map (· + 1) := by
  unfold lastTouch
  rw [show (ops ++ [o]).reverse = o :: ops.reverse by simp]
  rfl

theorem lookupKey_eq_none_iff (c : List (String × β)) (k : String) :
    lookupKey c k = none ↔ k ∉ keysOf c := by
  induction c with
  | nil => simp [lookupKey, keysOf]
  | cons p t ih =>
    by_cases h : p.1 = k
    · simp [lookupKey, keysOf, h]
    · simp [lookupKey, keysOf, h, ih]
      intro h2
      exact fun h3 => h (h3.symm)

theorem keysOf_removeKey (c : List (String × β)) (k : String) :
    keysOf (removeKey c k) = (keysOf c).erase k := by
  induction c with
  | nil => simp [removeKey, keysOf]
  | cons p t ih =>
    by_cases h : p.1 = k
    · simp [removeKey, keysOf, h, List.erase_cons]
    · simp [removeKey, keysOf, h, List.erase_cons]
      exact ih

theorem touchedBefore_ne (ops : List (LRUOp β)) (a b : String)
    (h : TouchedBefore ops a b) : a ≠ b := by
  obtain ⟨da, db, h1, h2, hlt⟩ := h
  intro heq
  rw [heq, h2] at h1
  simp at h1
  omega

theorem pairwise_touchedBefore_nodup (ops : List (LRUOp β))
    (l : List String) (h : l.Pairwise (TouchedBefore ops)) : l.Nodup :=
  h.imp (touchedBefore_ne ops _ _)

theorem lastTouch_append_untouched (ops : List (LRUOp β)) (o : LRUOp β)
    (k : String) (h : touchesOp k o = false) :
    lastTouch (ops ++ [o]) k = (lastTouch ops k).map (· + 1) := by
  rw [lastTouch_append]
  have h2 : ¬ (touchesOp k o = true) := by simp [h]
  rw [if_neg h2]

theorem lastTouch_append_touched (ops : List (LRUOp β)) (o : LRUOp β)
    (k : String) (h : touchesOp k o = true) :
    lastTouch (ops ++ [o]) k = some 0 := by
  rw [lastTouch_append, if_pos h]

theorem touchedBefore_append (ops : List (LRUOp β)) (o : LRUOp β)
    (a b : String) (ha : touchesOp a o = false) (hb : touchesOp b o = false)
    (h : TouchedBefore ops a b) : TouchedBefore (ops ++ [o]) a b := by
  obtain ⟨da, db, h1, h2, hlt⟩ := h
  refine ⟨da + 1, db + 1, ?_, ?_, by omega⟩
  · rw [lastTouch_append_untouched ops o a ha, h1]
    rfl
  · rw [lastTouch_append_untouched ops o b hb, h2]
    rfl

theorem touchedBefore_append_right (ops : List (LRUOp β)) (o : LRUOp β)
    (a b : String) (ha : touchesOp a o = false)
    (hsa : (lastTouch ops a).isSome) (hb : touchesOp b o = true) :
    TouchedBefore (ops ++ [o]) a b := by
  obtain ⟨da, hda⟩ := Option.isSome_iff_exists.mp hsa
  refine ⟨da + 1, 0, ?_, lastTouch_append_touched ops o b hb, by omega⟩
  rw [lastTouch_append_untouched ops o a ha, hda]
  rfl

/-- Invariant of every cache state reachable by `ops` from `initLRU C`:
correct capacity, bounded size, and the key list ordered from least to
most recently touched (with every cached key actually touched). -/
def CacheInv (C : ℕ) (ops : List (LRUOp β)) (st : LRUCache β) : Prop :=
  st.capacity = C ∧ st.cache.length ≤ C ∧
  (keysOf st.cache).Pairwise (TouchedBefore ops) ∧
  (∀ k ∈ keysOf st.cache, (lastTouch ops k).isSome)

theorem cacheInv_init (C : ℕ) : CacheInv C [] (initLRU (β := β) C) := by
  refine ⟨rfl, by simp [initLRU], by simp [initLRU, keysOf], ?_⟩
  simp [initLRU, keysOf]

theorem append_key_inv (ops : List (LRUOp β)) (o : LRUOp β) (l : List String)
    (k : String) (hP : l.Pairwise (TouchedBefore ops))
    (hS : ∀ a ∈ l, (lastTouch ops a).isSome)
    (hU : ∀ a ∈ l, touchesOp a o = false)
    (hT : touchesOp k o = true) :
    (l ++ [k]).Pairwise (TouchedBefore (ops ++ [o])) ∧
    (∀ a ∈ l ++ [k], (lastTouch (ops ++ [o]) a).isSome) := by
  constructor
  · apply List.pairwise_append.2
    refine ⟨?_, by simp, ?_⟩
    · exact List.Pairwise.imp_of_mem
        (fun ha hb r => touchedBefore_append ops o _ _ (hU _ ha) (hU _ hb) r)
        hP
    · intro a ha b hb
      have hbk : b = k := by simpa using hb
      rw [hbk]
      exact touchedBefore_append_right ops o a k (hU _ ha) (hS _ ha) hT
  · intro a ha
    rcases List.mem_append.1 ha with h | h
    · rw [lastTouch_append_untouched ops o a (hU _ h)]
      obtain ⟨da, hda⟩ := Option.isSome_iff_exists.mp (hS a h)
      rw [hda]
      rfl
    · have hak : a = k := by simpa using h
      rw [hak, lastTouch_append_touched ops o k hT]
      rfl

theorem untouched_inv (ops : List (LRUOp β)) (o : LRUOp β) (l : List String)
    (hP : l.Pairwise (TouchedBefore ops))
    (hS : ∀ a ∈ l, (lastTouch ops a).isSome)
    (hU : ∀ a ∈ l, touchesOp a o = false) :
    l.Pairwise (TouchedBefore (ops ++ [o])) ∧
    (∀ a ∈ l, (lastTouch (ops ++ [o]) a).isSome) := by
  constructor
  · exact List.Pairwise.imp_of_mem
      (fun ha hb r => touchedBefore_append ops o _ _ (hU _ ha) (hU _ hb) r) hP
  · intro a ha
    rw [lastTouch_append_untouched ops o a (hU _ ha)]
    obtain ⟨da, hda⟩ := Option.isSome_iff_exists.mp (hS a ha)
    rw [hda]
    rfl

theorem lookupKey_mem (c : List (String × β)) (k : String) (v : β)
    (h : lookupKey c k = some v) : k ∈ keysOf c := by
  by_contra hmem
  rw [← lookupKey_eq_none_iff] at hmem
  rw [h] at hmem
  exact Option.noConfusion hmem

theorem removeKey_length (c : List (String × β)) (k : String) (v : β)
    (h : lookupKey c k = some v) : (removeKey c k).length + 1 = c.length := by
  induction c with
  | nil => simp [lookupKey] at h
  | cons p t ih =>
    by_cases hp : p.1 = k
    · simp [removeKey, hp]
    · simp only [lookupKey, if_neg hp] at h
      simp [removeKey, hp, ih h]

theorem touches_get_self (k : String) :
    touchesOp (β := β) k (LRUOp.get k) = true := by
  simp [touchesOp]

theorem touches_put_self (k : String) (v : β) :
    touchesOp k (LRUOp.put k v) = true := by
  simp [touchesOp]

theorem touches_get_ne (a k : String) (h : a ≠ k) :
    touchesOp (β := β) a (LRUOp.get k) = false := by
  simp [touchesOp]
  exact fun h2 => h h2.symm

theorem touches_put_ne (a k : String) (v : β) (h : a ≠ k) :
    touchesOp a (LRUOp.put k v) = false := by
  simp [touchesOp]
  exact fun h2 => h h2.symm

theorem get_hit_eq (c : LRUCache β) (k : String) (v : β)
    (h : lookupKey c.cache k = some v) :
    c.get k = (some v,
      { c with
        cache := removeKey c.cache k ++ [(k, v)]
        hit_count := c.hit_count + 1
        access_count := c.access_count + 1 }) := by
  unfold LRUCache.get
  rw [h]

theorem get_miss_eq (c : LRUCache β) (k : String)
    (h : lookupKey c.cache k = none) :
    c.get k = (none,
      { c with
        miss_count := c.miss_count + 1
        access_count := c.access_count + 1 }) := by
  unfold LRUCache.get
  rw [h]

theorem put_existing_eq (c : LRUCache β) (k : String) (v vk : β)
    (h : lookupKey c.cache k = some vk) :
    c.put k v = some { c with cache := removeKey c.cache k ++ [(k, v)] } := by
  unfold LRUCache.put
  rw [h]

theorem put_new_full_eq (c : LRUCache β) (k : String) (v : β)
    (h : lookupKey c.cache k = none) (hful : c.capacity ≤ c.cache.length)
    (q : String × β) (t : List (String × β)) (hc : c.cache = q :: t) :
    c.put k v = some
      { c with
        cache := t ++ [(k, v)]
        eviction_count := c.eviction_count + 1 } := by
  unfold LRUCache.put
  rw [h, if_pos hful, hc]

theorem put_new_space_eq (c : LRUCache β) (k : String) (v : β)
    (h : lookupKey c.cache k = none)
    (hsp : ¬ c.capacity ≤ c.cache.length) :
    c.put k v = some { c with cache := c.cache ++ [(k, v)] } := by
  unfold LRUCache.put
  rw [h, if_neg hsp]

theorem cacheInv_step (C : ℕ) (ops : List (LRUOp β)) (st : LRUCache β)
    (hInv : CacheInv C ops st) (o : LRUOp β) (st' : LRUCache β)
    (hstep : stepOp st o = some st') : CacheInv C (ops ++ [o]) st' := by
  obtain ⟨hcap, hlen, hP, hS⟩ := hInv
  have hnd : (keysOf st.cache).Nodup := pairwise_touchedBefore_nodup ops _ hP
  cases o with
  | get k =>
    cases hlk : lookupKey st.cache k with
    | some v =>
      have hst' : st' =
          { st with
            cache := removeKey st.cache k ++ [(k, v)]
            hit_count := st.hit_count + 1
            access_count := st.access_count + 1 } := by
        have h1 := hstep
        simp only [stepOp, get_hit_eq st k v hlk] at h1
        exact (Option.some_inj.mp h1).symm
      have hkeys : keysOf st'.cache = (keysOf st.cache).erase k ++ [k] := by
        rw [hst']
        show keysOf (removeKey st.cache k ++ [(k, v)]) = _
        rw [keysOf, List.map_append, ← keysOf, keysOf_removeKey]
        rfl
      have hmemP : ∀ a ∈ (keysOf st.cache).erase k,
          a ≠ k ∧ a ∈ keysOf st.cache := by
        intro a ha
        exact (hnd.mem_erase_iff.mp ha)
      have hres := append_key_inv ops (LRUOp.get k)
        ((keysOf st.cache).erase k) k
        (hP.sublist (List.erase_sublist k (keysOf st.cache)))
        (fun a ha => hS a (hmemP a ha).2)
        (fun a ha => touches_get_ne a k (hmemP a ha).1)
        (touches_get_self k)
      refine ⟨by rw [hst']; exact hcap, ?_, by rw [hkeys]; exact hres.1,
        by rw [hkeys]; exact hres.2⟩
      rw [hst']
      show (removeKey st.cache k ++ [(k, v)]).length ≤ C
      rw [List.length_append]
      have := removeKey_length st.cache k v hlk
      simp only [List.length_cons, List.length_nil]
      omega
    | none =>
      have hst' : st' =
          { st with
            miss_count := st.miss_count + 1
            access_count := st.access_count + 1 } := by
        have h1 := hstep
        simp only [stepOp, get_miss_eq st k hlk] at h1
        exact (Option.some_inj.mp h1).symm
      have hknotmem : k ∉ keysOf st.cache :=
        (lookupKey_eq_none_iff st.cache k).mp hlk
      have hkeys : keysOf st'.cache = keysOf st.cache := by rw [hst']
      have hres := untouched_inv ops (LRUOp.get k) (keysOf st.cache) hP hS
        (fun a ha => touches_get_ne a k (fun heq => hknotmem (heq ▸ ha)))
      refine ⟨by rw [hst']; exact hcap, by rw [hst']; exact hlen,
        by rw [hkeys]; exact hres.1, by rw [hkeys]; exact hres.2⟩
  | put k v =>
    cases hlk : lookupKey st.cache k with
    | some vk =>
      have hst' : st' =
          { st with cache := removeKey st.cache k ++ [(k, v)] } := by
        have h1 := hstep
        simp only [stepOp, put_existing_eq st k v vk hlk] at h1
        exact (Option.some_inj.mp h1).symm
      have hkeys : keysOf st'.cache = (keysOf st.cache).erase k ++ [k] := by
        rw [hst']
        show keysOf (removeKey st.cache k ++ [(k, v)]) = _
        rw [keysOf, List.map_append, ← keysOf, keysOf_removeKey]
        rfl
      have hmemP : ∀ a ∈ (keysOf st.cache).erase k,
          a ≠ k ∧ a ∈ keysOf st.cache := by
        intro a ha
        exact (hnd.mem_erase_iff.mp ha)
      have hres := append_key_inv ops (LRUOp.put k v)
        ((keysOf st.cache).erase k) k
        (hP.sublist (List.erase_sublist k (keysOf st.cache)))
        (fun a ha => hS a (hmemP a ha).2)
        (fun a ha => touches_put_ne a k v (hmemP a ha).1)
        (touches_put_self k v)
      refine ⟨by rw [hst']; exact hcap, ?_, by rw [hkeys]; exact hres.1,
        by rw [hkeys]; exact hres.2⟩
      rw [hst']
      show (removeKey st.cache k ++ [(k, v)]).length ≤ C
      rw [List.length_append]
      have := removeKey_length st.cache k vk hlk
      simp only [List.length_cons, List.length_nil]
      omega
    | none =>
      have hknotmem : k ∉ keysOf st.cache :=
        (lookupKey_eq_none_iff st.cache k).mp hlk
      by_cases hful : st.capacity ≤ st.cache.length
      · cases hc : st.cache with
        | nil =>
          exfalso
          have h1 := hstep
          simp only [stepOp, put_new_full_eq] at h1
          unfold LRUCache.put at h1
          rw [hlk, if_pos hful, hc] at h1
          exact Option.noConfusion h1
        | cons q t =>
          have hst' : st' =
              { st with
                cache := t ++ [(k, v)]
                eviction_count := st.eviction_count + 1 } := by
            have h1 := hstep
            simp only [stepOp, put_new_full_eq st k v hlk hful q t hc] at h1
            exact (Option.some_inj.mp h1).symm
          have hkeysold : keysOf st.cache = q.1 :: keysOf t := by
            rw [hc]
            rfl
          have hPt : (keysOf t).Pairwise (TouchedBefore ops) := by
            rw [hkeysold] at hP
            exact (List.pairwise_cons.1 hP).2
          have hmemT : ∀ a ∈ keysOf t, a ∈ keysOf st.cache := by
            intro a ha
            rw [hkeysold]
            exact List.mem_cons_of_mem _ ha
          have hres := append_key_inv ops (LRUOp.put k v) (keysOf t) k hPt
            (fun a ha => hS a (hmemT a ha))
            (fun a ha => touches_put_ne a k v
              (fun heq => hknotmem (heq ▸ hmemT a ha)))
            (touches_put_self k v)
          have hkeys : keysOf st'.cache = keysOf t ++ [k] := by
            rw [hst']
            show keysOf (t ++ [(k, v)]) = _
            rw [keysOf, List.map_append]
            rfl
          refine ⟨by rw [hst']; exact hcap, ?_, by rw [hkeys]; exact hres.1,
            by rw [hkeys]; exact hres.2⟩
          rw [hst']
          show (t ++ [(k, v)]).length ≤ C
          rw [List.length_append]
          have hlc : st.cache.length = t.length + 1 := by rw [hc]; rfl
          simp only [List.length_cons, List.length_nil]
          omega
      · have hst' : st' = { st with cache := st.cache ++ [(k, v)] } := by
          have h1 := hstep
          simp only [stepOp, put_new_space_eq st k v hlk hful] at h1
          exact (Option.some_inj.mp h1).symm
        have hres := append_key_inv ops (LRUOp.put k v) (keysOf st.cache) k
          hP hS
          (fun a ha => touches_put_ne a k v (fun heq => hknotmem (heq ▸ ha)))
          (touches_put_self k v)
        have hkeys : keysOf st'.cache = keysOf st.cache ++ [k] := by
          rw [hst']
          show keysOf (st.cache ++ [(k, v)]) = _
          rw [keysOf, List.map_append]
          rfl
        refine ⟨by rw [hst']; exact hcap, ?_, by rw [hkeys]; exact hres.1,
          by rw [hkeys]; exact hres.2⟩
        rw [hst']
        show (st.cache ++ [(k, v)]).length ≤ C
        rw [List.length_append]
        simp only [List.length_cons, List.length_nil]
        omega

theorem runOps_append : ∀ (l1 : List (LRUOp β)) (c : LRUCache β)
    (l2 : List (LRUOp β)),
    runOps c (l1 ++ l2) = (runOps c l1).bind (fun c' => runOps c' l2) := by
  intro l1
  induction l1 with
  | nil =>
    intro c l2
    simp [runOps]
  | cons o t ih =>
    intro c l2
    show runOps c (o :: (t ++ l2)) = _
    cases hst : stepOp c o with
    | none => simp [runOps, hst]
    | some c' => simp [runOps, hst, ih c' l2]

theorem stepOp_total (C : ℕ) (hC : 1 ≤ C) (ops : List (LRUOp β))
    (st : LRUCache β) (hInv : CacheInv C ops st) (o : LRUOp β) :
    ∃ st', stepOp st o = some st' := by
  cases o with
  | get k => exact ⟨_, rfl⟩
  | put k v =>
    cases hlk : lookupKey st.cache k with
    | some vk => exact ⟨_, put_existing_eq st k v vk hlk⟩
    | none =>
      by_cases hful : st.capacity ≤ st.cache.length
      · have hlen1 : 1 ≤ st.cache.length := by
          have h1 := hInv.1
          omega
        cases hc : st.cache with
        | nil =>
          exfalso
          rw [hc] at hlen1
          simp at hlen1
        | cons q t => exact ⟨_, put_new_full_eq st k v hlk hful q t hc⟩
      · exact ⟨_, put_new_space_eq st k v hlk hful⟩

theorem cacheInv_run (C : ℕ) (hC : 1 ≤ C) (ops : List (LRUOp β)) :
    ∃ st : LRUCache β, runOps (initLRU C) ops = some st ∧
      CacheInv C ops st := by
  induction ops using List.reverseRecOn with
  | nil => exact ⟨initLRU C, rfl, cacheInv_init C⟩
  | append_singleton l o ih =>
    obtain ⟨st, hrun, hInv⟩ := ih
    obtain ⟨st', hstep⟩ := stepOp_total C hC l st hInv o
    refine ⟨st', ?_, cacheInv_step C l st hInv o st' hstep⟩
    rw [runOps_append, hrun]
    simp [runOps, hstep]

theorem keysOf_append (l1 l2 : List (String × β)) :
    keysOf (l1 ++ l2) = keysOf l1 ++ keysOf l2 := List.map_append _ l1 l2

theorem nodup_append_singleton (l : List String) (x : String)
    (h1 : l.Nodup) (h2 : x ∉ l) : (l ++ [x]).Nodup := by
  rw [List.nodup_append]
  refine ⟨h1, List.nodup_singleton x, ?_⟩
  intro a ha hb
  simp at hb
  rw [hb] at ha
  exact h2 ha

theorem lru_fill_keeps (C : ℕ) :
    ∀ (ps : List (String × β)) (st : LRUCache β)
      (pre suf : List (String × β)) (k : String) (vk : β),
    st.capacity = C →
    st.cache = pre ++ (k, vk) :: suf →
    (keysOf st.cache).Nodup →
    st.cache.length ≤ C →
    suf.length + ps.length ≤ C - 1 →
    (ps.map Prod.fst).Nodup →
    (∀ p ∈ ps, p.1 ∉ keysOf st.cache) →
    ∃ stF, runOps st (ps.map (fun p => LRUOp.put p.1 p.2)) = some stF ∧
      k ∈ keysOf stF.cache := by
  intro ps
  induction ps with
  | nil =>
    intro st pre suf k vk _ hdec _ _ _ _ _
    refine ⟨st, rfl, ?_⟩
    rw [hdec, keysOf_append]
    apply List.mem_append.2
    right
    simp [keysOf]
  | cons p ps ih =>
    intro st pre suf k vk hcap hdec hnd hlen hbound hpnd hfresh
    have hpfresh : p.1 ∉ keysOf st.cache :=
      hfresh p (List.mem_cons_self p ps)
    have hlk : lookupKey st.cache p.1 = none :=
      (lookupKey_eq_none_iff st.cache p.1).mpr hpfresh
    have hkmem : k ∈ keysOf st.cache := by
      rw [hdec, keysOf_append]
      apply List.mem_append.2
      right
      simp [keysOf]
    have hlc : st.cache.length = pre.length + (suf.length + 1) := by
      have h1 := congrArg List.length hdec
      simpa using h1
    have hps1 : p.1 ∉ List.map Prod.fst ps := (List.nodup_cons.mp hpnd).1
    have hpsnd : (List.map Prod.fst ps).Nodup := (List.nodup_cons.mp hpnd).2
    by_cases hful : st.capacity ≤ st.cache.length
    · have hpre : pre ≠ [] := by
        intro h0
        rw [h0] at hlc
        simp at hlc
        simp only [List.length_cons] at hbound
        omega
      obtain ⟨q, pre', hq⟩ := List.exists_cons_of_ne_nil hpre
      have hc : st.cache = q :: (pre' ++ (k, vk) :: suf) := by
        rw [hdec, hq]
        rfl
      have hstep : st.put p.1 p.2 = some
          { st with
            cache := (pre' ++ (k, vk) :: suf) ++ [(p.1, p.2)]
            eviction_count := st.eviction_count + 1 } :=
        put_new_full_eq st p.1 p.2 hlk hful q _ hc
      have htailnd : (keysOf (pre' ++ (k, vk) :: suf)).Nodup := by
        rw [hc, keysOf] at hnd
        simp only [List.map_cons] at hnd
        exact (List.nodup_cons.mp hnd).2
      have htailsub : ∀ a ∈ keysOf (pre' ++ (k, vk) :: suf),
          a ∈ keysOf st.cache := by
        intro a ha
        rw [hc, keysOf]
        simp only [List.map_cons]
        exact List.mem_cons_of_mem _ ha
      have hndnew : (keysOf ((pre' ++ (k, vk) :: suf) ++ [(p.1, p.2)])).Nodup
          := by
        rw [keysOf_append]
        apply nodup_append_singleton _ _ htailnd
        intro hmem
        have : p.1 ∈ keysOf st.cache := htailsub _ hmem
        exact hpfresh this
      obtain ⟨stF, hrunF, hkF⟩ := ih
        { st with
          cache := (pre' ++ (k, vk) :: suf) ++ [(p.1, p.2)]
          eviction_count := st.eviction_count + 1 }
        pre' (suf ++ [(p.1, p.2)]) k vk hcap
        (by
          show (pre' ++ (k, vk) :: suf) ++ [(p.1, p.2)] =
            pre' ++ (k, vk) :: (suf ++ [(p.1, p.2)])
          simp [List.append_assoc])
        hndnew
        (by
          show ((pre' ++ (k, vk) :: suf) ++ [(p.1, p.2)]).length ≤ C
          have h1 := congrArg List.length hc
          simp only [List.length_append, List.length_cons,
            List.length_nil] at h1 ⊢
          omega)
        (by
          simp only [List.length_append, List.length_cons,
            List.length_nil] at hbound ⊢
          omega)
        hpsnd
        (by
          intro r hr
          show r.1 ∉ keysOf ((pre' ++ (k, vk) :: suf) ++ [(p.1, p.2)])
          rw [keysOf_append]
          intro hmem
          rcases List.mem_append.1 hmem with h | h
          · exact hfresh r (List.mem_cons_of_mem p hr) (htailsub _ h)
          · have hr1 : r.1 = p.1 := by simpa [keysOf] using h
            apply hps1
            rw [← hr1]
            exact List.mem_map_of_mem Prod.fst hr)
      refine ⟨stF, ?_, hkF⟩
      show runOps st (LRUOp.put p.1 p.2 :: ps.map (fun r => LRUOp.put r.1 r.2))
        = some stF
      simp only [runOps, stepOp, hstep]
      exact hrunF
    · have hstep : st.put p.1 p.2 = some
          { st with cache := st.cache ++ [(p.1, p.2)] } :=
        put_new_space_eq st p.1 p.2 hlk hful
      have hndnew : (keysOf (st.cache ++ [(p.1, p.2)])).Nodup := by
        rw [keysOf_append]
        exact nodup_append_singleton _ _ hnd hpfresh
      obtain ⟨stF, hrunF, hkF⟩ := ih
        { st with cache := st.cache ++ [(p.1, p.2)] }
        pre (suf ++ [(p.1, p.2)]) k vk hcap
        (by
          show st.cache ++ [(p.1, p.2)] =
            pre ++ (k, vk) :: (suf ++ [(p.1, p.2)])
          rw [hdec]
          simp [List.append_assoc])
        hndnew
        (by
          show (st.cache ++ [(p.1, p.2)]).length ≤ C
          simp only [List.length_append, List.length_cons, List.length_nil]
          omega)
        (by
          simp only [List.length_append, List.length_cons,
            List.length_nil] at hbound ⊢
          omega)
        hpsnd
        (by
          intro r hr
          show r.1 ∉ keysOf (st.cache ++ [(p.1, p.2)])
          rw [keysOf_append]
          intro hmem
          rcases List.mem_append.1 hmem with h | h
          · exact hfresh r (List.mem_cons_of_mem p hr) h
          · have hr1 : r.1 = p.1 := by simpa [keysOf] using h
            apply hps1
            rw [← hr1]
            exact List.mem_map_of_mem Prod.fst hr)
      refine ⟨stF, ?_, hkF⟩
      show runOps st (LRUOp.put p.1 p.2 :: ps.map (fun r => LRUOp.put r.1 r.2))
        = some stF
      simp only [runOps, stepOp, hstep]
      exact hrunF

/-- C3: over every operation sequence on an LRUCache of capacity C ≥ 1,
(1) the number of stored keys never exceeds C; (2) a put of a new key when
the cache holds C keys performs exactly one eviction and evicts the
least-recently-touched key, where a get hit and a put both count as
touches promoting the key; (3) after a get hit on a key, inserting up to
C - 1 fresh keys never evicts that key. -/
theorem lru_cache_spec {β : Type} (C : ℕ) (hC : 1 ≤ C) :
    (∀ ops : List (LRUOp β), ∃ st : LRUCache β,
      runOps (initLRU C) ops = some st ∧ st.cache.length ≤ C) ∧
    (∀ (ops : List (LRUOp β)) (st : LRUCache β) (k : String) (v : β),
      runOps (initLRU C) ops = some st → st.cache.length = C →
      lookupKey st.cache k = none →
      ∃ (k₀ : String) (v₀ : β) (t : List (String × β)) (st' : LRUCache β),
        st.cache = (k₀, v₀) :: t ∧
        st.put k v = some st' ∧
        st'.eviction_count = st.eviction_count + 1 ∧
        st'.cache.length = C ∧
        k₀ ∉ keysOf st'.cache ∧
        (∀ k' ∈ keysOf st.cache, k' ≠ k₀ → TouchedBefore ops k₀ k')) ∧
    (∀ (ops : List (LRUOp β)) (st : LRUCache β) (k : String) (v : β)
        (ps : List (String × β)),
      runOps (initLRU C) ops = some st →
      lookupKey st.cache k = some v →
      (ps.map Prod.fst).Nodup →
      (∀ p ∈ ps, p.1 ∉ keysOf st.cache) →
      ps.length ≤ C - 1 →
      ∃ stF : LRUCache β,
        runOps (st.get k).2 (ps.map (fun p => LRUOp.put p.1 p.2)) = some stF
        ∧ k ∈ keysOf stF.cache) := by
  refine ⟨?_, ?_, ?_⟩
  · intro ops
    obtain ⟨st, hrun, hInv⟩ := cacheInv_run C hC ops
    exact ⟨st, hrun, hInv.2.1⟩
  · intro ops st k v hrun hlen hlk
    obtain ⟨st1, hrun1, hInv⟩ := cacheInv_run C hC ops
    rw [hrun] at hrun1
    have hst1 : st1 = st := Option.some_inj.mp hrun1.symm
    rw [hst1] at hInv
    obtain ⟨hcap, _, hP, hS⟩ := hInv
    have hnd : (keysOf st.cache).Nodup := pairwise_touchedBefore_nodup ops _ hP
    have hknotmem : k ∉ keysOf st.cache :=
      (lookupKey_eq_none_iff st.cache k).mp hlk
    cases hc : st.cache with
    | nil =>
      exfalso
      rw [hc] at hlen
      simp at hlen
      omega
    | cons q t =>
      have hful : st.capacity ≤ st.cache.length := by omega
      have hstep := put_new_full_eq st k v hlk hful q t hc
      have hkeysold : keysOf st.cache = q.1 :: keysOf t := by
        rw [hc]
        rfl
      have hq1mem : q.1 ∈ keysOf st.cache := by
        rw [hkeysold]
        exact List.mem_cons_self _ _
      have hq1nk : q.1 ≠ k := fun heq => hknotmem (heq ▸ hq1mem)
      have hq1nt : q.1 ∉ keysOf t := by
        rw [hkeysold] at hnd
        exact (List.nodup_cons.mp hnd).1
      refine ⟨q.1, q.2, t, _, rfl, hstep, rfl, ?_, ?_, ?_⟩
      · show (t ++ [(k, v)]).length = C
        have h1 := congrArg List.length hc
        simp only [List.length_cons] at h1
        simp only [List.length_append, List.length_cons, List.length_nil]
        omega
      · show q.1 ∉ keysOf (t ++ [(k, v)])
        rw [keysOf_append]
        intro hmem
        rcases List.mem_append.1 hmem with h | h
        · exact hq1nt h
        · have : q.1 = k := by simpa [keysOf] using h
          exact hq1nk this
      · intro k' hk' hne
        have hk'2 : k' ∈ q.1 :: keysOf t := by simpa [keysOf] using hk'
        rcases List.mem_cons.1 hk'2 with h | h
        · exact absurd h hne
        · rw [hkeysold] at hP
          exact (List.pairwise_cons.1 hP).1 k' h
  · intro ops st k v ps hrun hlk hpnd hfresh hbound
    obtain ⟨st1, hrun1, hInv⟩ := cacheInv_run C hC ops
    rw [hrun] at hrun1
    have hst1 : st1 = st := Option.some_inj.mp hrun1.symm
    rw [hst1] at hInv
    obtain ⟨hcap, hlen, hP, hS⟩ := hInv
    have hnd : (keysOf st.cache).Nodup := pairwise_touchedBefore_nodup ops _ hP
    have hget := get_hit_eq st k v hlk
    have hkmem : k ∈ keysOf st.cache := lookupKey_mem st.cache k v hlk
    have hst2 : (st.get k).2 =
        { st with
          cache := removeKey st.cache k ++ [(k, v)]
          hit_count := st.hit_count + 1
          access_count := st.access_count + 1 } := by
      rw [hget]
    have hkeys2 : keysOf (removeKey st.cache k ++ [(k, v)]) =
        (keysOf st.cache).erase k ++ [k] := by
      rw [keysOf_append, keysOf_removeKey]
      rfl
    apply lru_fill_keeps C ps ((st.get k).2) (removeKey st.cache k) [] k v
    · rw [hst2]
      exact hcap
    · rw [hst2]
    · rw [hst2]
      show (keysOf (removeKey st.cache k ++ [(k, v)])).Nodup
      rw [hkeys2]
      apply nodup_append_singleton _ _ (hnd.erase k)
      intro hmem
      exact ((hnd.mem_erase_iff.mp hmem).1) rfl
    · rw [hst2]
      show (removeKey st.cache k ++ [(k, v)]).length ≤ C
      have := removeKey_length st.cache k v hlk
      simp only [List.length_append, List.length_cons, List.length_nil]
      omega
    · simpa using hbound
    · exact hpnd
    · intro p hp
      rw [hst2]
      show p.1 ∉ keysOf (removeKey st.cache k ++ [(k, v)])
      rw [hkeys2]
      intro hmem
      rcases List.mem_append.1 hmem with h | h
      · exact hfresh p hp (List.mem_of_mem_erase h)
      · have hpk : p.1 = k := by simpa using h
        exact hfresh p hp (hpk ▸ hkmem)

/-- Witness for C3: capacity 1, the empty operation sequence. -/
theorem lru_cache_spec_witness :
    (1 ≤ 1) ∧ ∃ st : LRUCache ℕ,
      runOps (initLRU 1) ([] : List (LRUOp ℕ)) = some st ∧
      st.cache.length ≤ 1 :=
  ⟨le_refl 1, (lru_cache_spec 1 (le_refl 1)).1 []⟩

/-- C8 (code behavior at the failing input): constructing a
CircularFrameBuffer or an LRUCache with capacity 0 succeeds - neither
constructor validates its capacity - and the failure only surfaces later
inside an operation: the first `write` raises (ZeroDivisionError from
`(tail + 1) % 0`) and the first `put` of a new key raises (KeyError from
`popitem` on an empty map). -/
theorem zero_capacity_behavior (x : ℕ) (k : String) (v : ℕ) :
    (initCFB 0 : CFB ℕ) =
      { capacity := 0, buffer := [], head := 0, tail := 0, size := 0
        write_count := 0, read_count := 0, overflow_count := 0 } ∧
    CFB.write (initCFB 0 : CFB ℕ) x = none ∧
    (initLRU 0 : LRUCache ℕ) =
      { capacity := 0, cache := [], hit_count := 0, miss_count := 0
        eviction_count := 0, access_count := 0 } ∧
    LRUCache.put (initLRU 0 : LRUCache ℕ) k v = none := by
  refine ⟨rfl, rfl, rfl, rfl⟩

end AntiTheft
